import Mathlib

/-!
A shallow embedding of the LRU cache implemented in `src/index.ts`
(class `LRUCache`, helper functions `get`, `isStale`, `trim`, `del`,
class `LEntry`), together with proofs of the specified properties.

Modelling conventions:
* JS numbers used as weights, timestamps and ages become `Int`;
  `Infinity` (the default `max`) becomes `none` in an `Option Int`.
* `Date.now()` becomes an explicit `now : Int` argument, sampled once
  per public operation (the spec assumes a monotonic-enough clock).
* The `dispose` callback becomes a trace: each operation additionally
  returns the list of `(key, value)` pairs the source would pass to
  `this[DISPOSE]`, in call order; the list is empty when no dispose
  callback is configured (`hasDispose = false`).
* The Yallist recency list becomes a `List (LEntry K V)` whose head is
  the most recently used entry; the key `Map` (`this[CACHE]`) becomes
  the list `cacheKeys` of its keys.  In the source the map stores node
  references aliasing the list nodes, so `CACHE.get(key)` yields the
  unique list entry holding `key`; here `cacheGet` looks the entry up
  in the recency list, guarded by membership in `cacheKeys`.
* In-place mutation of an `LEntry` (the overwrite path of `set`, the
  `updateAgeOnGet` path of `get`) becomes functional replacement of
  the entry inside the recency list.
-/

section LRUModel

variable {K V : Type} [DecidableEq K]

/-- `class LEntry { key, value, length, now, maxAge }`; the constructor
normalises `maxAge` with `maxAge || 0`, which is the identity on `Int`. -/
structure LEntry (K V : Type) where
  key : K
  value : V
  length : Int
  now : Int
  maxAge : Int
deriving Repr, DecidableEq

/-- The cache state: configuration fields plus the two linked
structures and the running total `this[LENGTH]`. -/
structure LRU (K V : Type) where
  /-- `this[MAX]`; `none` is `Infinity`. -/
  max : Option Int
  /-- `this[LENGTH_CALCULATOR]`, called as `lc(value, key)`. -/
  lengthCalculator : V → K → Int
  /-- `this[ALLOW_STALE]` -/
  allowStale : Bool
  /-- `this[MAX_AGE]` -/
  maxAge : Int
  /-- whether `this[DISPOSE]` is configured -/
  hasDispose : Bool
  /-- `this[NO_DISPOSE_ON_SET]` -/
  noDisposeOnSet : Bool
  /-- `this[UPDATE_AGE_ON_GET]` -/
  updateAgeOnGet : Bool
  /-- `this[LRU_LIST]`, head = most recently used -/
  lruList : List (LEntry K V)
  /-- the key set of `this[CACHE]`, most recently inserted first -/
  cacheKeys : List K
  /-- `this[LENGTH]` -/
  totalLength : Int

namespace LRU

/-- `x > this[MAX]` for a possibly-infinite `max`. -/
def gtMax (x : Int) (max : Option Int) : Bool :=
  match max with
  | none => false
  | some m => x > m

/-- First entry of the recency list holding `k` (the node
`this[CACHE]` aliases for `k`). -/
def findEntry : List (LEntry K V) → K → Option (LEntry K V)
  | [], _ => none
  | e :: rest, k => if e.key = k then some e else findEntry rest k

/-- Remove the first entry holding `k` (Yallist `removeNode` on the
node the map holds for `k`). -/
def removeKey : List (LEntry K V) → K → List (LEntry K V)
  | [], _ => []
  | e :: rest, k => if e.key = k then rest else e :: removeKey rest k

/-- Replace the first entry holding `k` (in-place mutation of the
shared `LEntry` object in the source). -/
def replaceEntry : List (LEntry K V) → K → LEntry K V → List (LEntry K V)
  | [], _, _ => []
  | e :: rest, k, e' => if e.key = k then e' :: rest else e :: replaceEntry rest k e'

/-- `this[CACHE].get(key)` dereferenced to the entry (`node.value`). -/
def cacheGet (self : LRU K V) (key : K) : Option (LEntry K V) :=
  if key ∈ self.cacheKeys then findEntry self.lruList key else none

/-- `const isStale = (self, hit) => ...` -/
def isStale (self : LRU K V) (now : Int) (hit : LEntry K V) : Bool :=
  if hit.maxAge = 0 ∧ self.maxAge = 0 then false
  else
    let diff := now - hit.now
    if hit.maxAge ≠ 0 then diff > hit.maxAge
    else self.maxAge ≠ 0 ∧ diff > self.maxAge

/-- `const del = (self, node) => { ... }` for a non-null node: dispose,
subtract the weight, delete from the map, unlink from the list. -/
def delEntry (self : LRU K V) (hit : LEntry K V) : LRU K V × List (K × V) :=
  ({ self with
      totalLength := self.totalLength - hit.length
      cacheKeys := self.cacheKeys.filter (fun x => !decide (x = hit.key))
      lruList := removeKey self.lruList hit.key },
   if self.hasDispose then [(hit.key, hit.value)] else [])

/-- `const del = (self, node) => { if (node) { ... } }` -/
def del (self : LRU K V) : Option (LEntry K V) → LRU K V × List (K × V)
  | none => (self, [])
  | some hit => delEntry self hit

/-- The walker loop of `trim`: `r` is the remaining walker chain
(current tail first, i.e. the reverse of the remaining list). -/
def trimWalk (self : LRU K V) : List (LEntry K V) → LRU K V × List (K × V)
  | [] => (self, [])
  | e :: rest =>
      if gtMax self.totalLength self.max then
        let p := delEntry self e
        let q := trimWalk p.1 rest
        (q.1, p.2 ++ q.2)
      else (self, [])

/-- `const trim = (self) => { if (self[LENGTH] > self[MAX]) { ... } }` -/
def trim (self : LRU K V) : LRU K V × List (K × V) :=
  if gtMax self.totalLength self.max then trimWalk self self.lruList.reverse
  else (self, [])

/-- `const get = (self, key, doUse) => ...`; returns the looked-up
value, the new state and the dispose trace. -/
def getOp (self : LRU K V) (now : Int) (key : K) (doUse : Bool) :
    Option V × LRU K V × List (K × V) :=
  match cacheGet self key with
  | none => (none, self, [])
  | some hit =>
      if isStale self now hit then
        let p := del self (some hit)
        if !self.allowStale then (none, p.1, p.2)
        else (some hit.value, p.1, p.2)
      else
        if doUse then
          let hit2 := if self.updateAgeOnGet then { hit with now := now } else hit
          (some hit2.value,
           { self with lruList := hit2 :: removeKey self.lruList key },
           [])
        else (some hit.value, self, [])

/-- `has(key)`: a pure read — the source performs no mutation here. -/
def has (self : LRU K V) (now : Int) (key : K) : Bool :=
  match cacheGet self key with
  | none => false
  | some hit => !isStale self now hit

/-- `maxAge = maxAge || this[MAX_AGE]` on the optional third argument
of `set`. -/
def effMaxAge (self : LRU K V) (maxAgeArg : Option Int) : Int :=
  match maxAgeArg with
  | some m => if m ≠ 0 then m else self.maxAge
  | none => self.maxAge

/-- `const now = maxAge ? Date.now() : 0` -/
def effNow (now maxAge : Int) : Int :=
  if maxAge ≠ 0 then now else 0

/-- `set(key, value, maxAge)`; `maxAge?` is the optional third
argument. Returns the boolean result, the new state and the trace. -/
def setOp (self : LRU K V) (now : Int) (key : K) (value : V)
    (maxAgeArg : Option Int) : Bool × LRU K V × List (K × V) :=
  -- maxAge = maxAge || this[MAX_AGE]
  let maxAge := effMaxAge self maxAgeArg
  -- const now = maxAge ? Date.now() : 0
  let now' := effNow now maxAge
  let len := self.lengthCalculator value key
  match cacheGet self key with
  | some item =>
      -- if (this[CACHE].has(key)) { ... }
      if gtMax len self.max then
        let p := del self (cacheGet self key)
        (false, p.1, p.2)
      else
        let t0 := if self.hasDispose ∧ ¬self.noDisposeOnSet
          then [(key, item.value)] else []
        let item2 : LEntry K V :=
          { item with now := now', maxAge := maxAge, value := value, length := len }
        let s1 : LRU K V :=
          { self with
              totalLength := self.totalLength + (len - item.length)
              lruList := replaceEntry self.lruList key item2 }
        -- this.get(key)
        let g := getOp s1 now key true
        -- trim(this)
        let tr := trim g.2.1
        (true, tr.1, t0 ++ g.2.2 ++ tr.2)
  | none =>
      let hit : LEntry K V := ⟨key, value, len, now', maxAge⟩
      -- oversized objects fall out of cache automatically
      if gtMax hit.length self.max then
        (false, self, if self.hasDispose then [(key, value)] else [])
      else
        let s1 : LRU K V :=
          { self with
              totalLength := self.totalLength + hit.length
              lruList := hit :: self.lruList
              cacheKeys := key :: self.cacheKeys }
        let tr := trim s1
        (true, tr.1, tr.2)

/-- The in-place update of the stored entry in the overwrite path of
`set` (`item.now = now; item.maxAge = maxAge; item.value = value;
item.length = len`). -/
def overwriteEntry (item : LEntry K V) (value : V) (len now' maxAge : Int) :
    LEntry K V :=
  { item with now := now', maxAge := maxAge, value := value, length := len }

/-- The cache state right after the in-place update of the overwrite
path of `set`, before the inner `this.get(key)` and `trim(this)`. -/
def overwriteState (st : LRU K V) (now : Int) (key : K) (value : V)
    (mAge : Option Int) (item : LEntry K V) : LRU K V :=
  { st with
      totalLength := st.totalLength + (st.lengthCalculator value key - item.length)
      lruList := replaceEntry st.lruList key
        (overwriteEntry item value (st.lengthCalculator value key)
          (effNow now (effMaxAge st mAge)) (effMaxAge st mAge)) }

/-- The cache state right after the fresh insert of `set`, before
`trim(this)`. -/
def insertState (st : LRU K V) (now : Int) (key : K) (value : V)
    (mAge : Option Int) : LRU K V :=
  { st with
      totalLength := st.totalLength + st.lengthCalculator value key
      lruList := (⟨key, value, st.lengthCalculator value key,
        effNow now (effMaxAge st mAge), effMaxAge st mAge⟩ : LEntry K V) :: st.lruList
      cacheKeys := key :: st.cacheKeys }

/-- `del(key)` (the public method). -/
def delOp (self : LRU K V) (key : K) : LRU K V × List (K × V) :=
  del self (cacheGet self key)

/-- `pop()`. -/
def pop (self : LRU K V) : Option (LEntry K V) × LRU K V × List (K × V) :=
  match self.lruList.getLast? with
  | none => (none, self, [])
  | some hit =>
      let p := delEntry self hit
      (some hit, p.1, p.2)

/-- `reset()`: dispose every held entry in list order, then clear. -/
def reset (self : LRU K V) : LRU K V × List (K × V) :=
  ({ self with cacheKeys := [], lruList := [], totalLength := 0 },
   if self.hasDispose then self.lruList.map (fun e => (e.key, e.value)) else [])

/-- `dump()`: head-to-tail records `{k, v, e}` of the non-stale
entries, `e = hit.now + (hit.maxAge || 0)`. -/
def dump (self : LRU K V) (now : Int) : List (K × V × Int) :=
  (self.lruList.filter (fun hit => !isStale self now hit)).map
    (fun hit => (hit.key, hit.value, hit.now + hit.maxAge))

/-- One step of the `load` loop body, for the record `(k, v, e)`. -/
def loadStep (now : Int) (acc : LRU K V × List (K × V)) (rec : K × V × Int) :
    LRU K V × List (K × V) :=
  let expiresAt := rec.2.2
  if expiresAt = 0 then
    let p := setOp acc.1 now rec.1 rec.2.1 none
    (p.2.1, acc.2 ++ p.2.2)
  else
    let mA := expiresAt - now
    if mA > 0 then
      let p := setOp acc.1 now rec.1 rec.2.1 (some mA)
      (p.2.1, acc.2 ++ p.2.2)
    else acc

/-- `load(arr)`: reset, then replay `arr` from its last index down. -/
def load (self : LRU K V) (now : Int) (arr : List (K × V × Int)) :
    LRU K V × List (K × V) :=
  arr.reverse.foldl (loadStep now) (reset self)

/-- `prune()`: iterate the map in insertion order (`cacheKeys` is most
recent first, so insertion order is its reverse), doing a
non-promoting `get` on each key. -/
def prune (self : LRU K V) (now : Int) : LRU K V × List (K × V) :=
  self.cacheKeys.reverse.foldl
    (fun acc k =>
      let p := getOp acc.1 now k false
      (p.2.1, acc.2 ++ p.2.2))
    (self, [])

/-- `const forEachStep = (self, fn, node, thisp) => ...`: if the
visited entry is stale it is deleted (disposing it) and, unless
`allowStale`, not shown to the visitor; otherwise (or when stale reads
are allowed) the visitor is called with `(hit.value, hit.key)`.  The
visitor calls are returned as a trace in the third component. -/
def forEachStep (self : LRU K V) (now : Int) (e : LEntry K V) :
    LRU K V × List (K × V) × List (V × K) :=
  if isStale self now e then
    let p := delEntry self e
    if !self.allowStale then (p.1, p.2, [])
    else (p.1, p.2, [(e.value, e.key)])
  else (self, [], [(e.value, e.key)])

/-- `forEach(fn)`: walk the node chain head-to-tail (`next` is
captured before each step and the step deletes at most the current
node, so the visited sequence is the original list), applying
`forEachStep` to each entry. -/
def forEach (self : LRU K V) (now : Int) :
    LRU K V × List (K × V) × List (V × K) :=
  self.lruList.foldl
    (fun acc e =>
      let p := forEachStep acc.1 now e
      (p.1, acc.2.1 ++ p.2.1, acc.2.2 ++ p.2.2))
    (self, [], [])

/-- `rforEach(fn)`: the same walk tail-to-head (`prev` captured before
each step). -/
def rforEach (self : LRU K V) (now : Int) :
    LRU K V × List (K × V) × List (V × K) :=
  self.lruList.reverse.foldl
    (fun acc e =>
      let p := forEachStep acc.1 now e
      (p.1, acc.2.1 ++ p.2.1, acc.2.2 ++ p.2.2))
    (self, [], [])

/-- The `lengthCalculator` setter.  The source falls back to
`naiveLength` for non-functions (the embedding is typed, so `lC` is
always a function) and skips the recompute when the assigned function
is reference-identical to the stored one (`lC !== this[LENGTH_CALCULATOR]`);
reference identity of functions is not observable in the embedding,
so it is supplied as the flag `isSame`.  In the recompute branch every
entry's `length` is rewritten with the new function and `LENGTH` is
rebuilt as their running sum; in both branches `trim(this)` runs. -/
def setLengthCalculator (self : LRU K V) (lC : V → K → Int) (isSame : Bool) :
    LRU K V × List (K × V) :=
  if isSame then trim self
  else
    trim { self with
      lengthCalculator := lC
      lruList := self.lruList.map
        (fun hit => { hit with length := lC hit.value hit.key })
      totalLength := ((self.lruList.map
        (fun hit => { hit with length := lC hit.value hit.key })).map
          (fun e => e.length)).sum }

/-- `mL || Infinity` applied to a validated `max` value, used by the
constructor and the `max` setter. -/
def normMax (m : Int) : Option Int :=
  if m = 0 then none else some m

/-- The `max` setter after validation: store `mL || Infinity`, trim. -/
def setMax (self : LRU K V) (mL : Int) : LRU K V × List (K × V) :=
  trim { self with max := normMax mL }

/-- The `maxAge` setter after validation: store, trim. -/
def setMaxAge (self : LRU K V) (mA : Int) : LRU K V × List (K × V) :=
  trim { self with maxAge := mA }

/-- The constructor after validation: set the configuration
(`max = options.max || Infinity`, `maxAge = options.maxAge || 0`,
defaults for the flags) and `reset()` into the empty state. -/
def newCache (max : Int) (lc : V → K → Int) (stale : Bool) (mAge : Int)
    (dispo noDispSet updAge : Bool) : LRU K V :=
  { max := normMax max
    lengthCalculator := lc
    allowStale := stale
    maxAge := mAge
    hasDispose := dispo
    noDisposeOnSet := noDispSet
    updateAgeOnGet := updAge
    lruList := []
    cacheKeys := []
    totalLength := 0 }

end LRU

end LRUModel

section Validation

/-!
The configuration-time validation in the constructor and the `max` /
`maxAge` setters depends on JavaScript truthiness and `typeof`, so the
option values are modelled by a small JS value type.
-/

/-- A JavaScript value passed as a configuration option: `undefined`,
a finite number, `Infinity`, or a non-number (truthy or falsy). -/
inductive JSVal where
  | undef
  | num (x : Int)
  | infin
  | nonNumTruthy
  | nonNumFalsy
deriving Repr, DecidableEq

namespace JSVal

def truthy : JSVal → Bool
  | .undef => false
  | .num x => x ≠ 0
  | .infin => true
  | .nonNumTruthy => true
  | .nonNumFalsy => false

/-- `typeof v === 'number'` -/
def isNumber : JSVal → Bool
  | .num _ => true
  | .infin => true
  | _ => false

/-- `v < 0` on a number (false on non-numbers, matching the guarded
uses below). -/
def numLt0 : JSVal → Bool
  | .num x => x < 0
  | _ => false

/-- Constructor check on `options.max`:
`if (options.max && (typeof options.max !== 'number' || options.max < 0)) throw`. -/
def maxCtorThrows (o : JSVal) : Bool :=
  o.truthy && (!o.isNumber || o.numLt0)

/-- Constructor check on `options.maxAge`:
`if (options.maxAge && typeof options.maxAge !== 'number') throw`. -/
def maxAgeCtorThrows (o : JSVal) : Bool :=
  o.truthy && !o.isNumber

/-- `set max(mL)` check: `if (typeof mL !== 'number' || mL < 0) throw`. -/
def maxSetterThrows (o : JSVal) : Bool :=
  !o.isNumber || o.numLt0

/-- `set maxAge(mA)` check: `if (typeof mA !== 'number') throw`
(the thrown message reads "maxAge must be a non-negative number"). -/
def maxAgeSetterThrows (o : JSVal) : Bool :=
  !o.isNumber

end JSVal

end Validation

section Invariants

variable {K V : Type} [DecidableEq K]

namespace LRU

/-- The joint structural invariant of the cache: the key map has no
duplicate keys, it holds exactly the keys of the recency list, and the
running total is the sum of the stored weights. -/
def WF (st : LRU K V) : Prop :=
  st.cacheKeys.Nodup ∧
  st.cacheKeys.Perm (st.lruList.map (fun e => e.key)) ∧
  st.totalLength = (st.lruList.map (fun e => e.length)).sum

instance WF.instDecidable (st : LRU K V) : Decidable (WF st) := by
  unfold WF; exact inferInstance

/-- The configuration fields, which no cache operation changes except
the dedicated setters. -/
def sameConfig (a b : LRU K V) : Prop :=
  a.max = b.max ∧ a.lengthCalculator = b.lengthCalculator ∧
  a.allowStale = b.allowStale ∧ a.maxAge = b.maxAge ∧
  a.hasDispose = b.hasDispose ∧ a.noDisposeOnSet = b.noDisposeOnSet ∧
  a.updateAgeOnGet = b.updateAgeOnGet

end LRU

/-- A unit-weight cache over `Nat` keys and values, used for the
concrete scenarios. -/
def unitCache (max : Int) (stale : Bool) (mAge : Int) (dispo : Bool) :
    LRU Nat Nat :=
  LRU.newCache max (fun _ _ => 1) stale mAge dispo false false

/-- A cache whose weight function is the stored value itself, used for
the oversized-entry scenarios. -/
def weightCache (max : Int) (dispo : Bool) : LRU Nat Nat :=
  LRU.newCache max (fun v _ => (v : Int)) false 0 dispo false false

/-- A weight-`value` capacity-1 cache with a dispose callback, already
holding the entry `0 ↦ 1` of weight 1. -/
def exPresent : LRU Nat Nat :=
  { max := some 1
    lengthCalculator := fun v _ => (v : Int)
    allowStale := false
    maxAge := 0
    hasDispose := true
    noDisposeOnSet := false
    updateAgeOnGet := false
    lruList := [⟨0, 1, 1, 0, 0⟩]
    cacheKeys := [0]
    totalLength := 1 }

/-- An unbounded `allowStale` cache with a dispose callback holding
the entry `0 ↦ 1` created at time 0 with a 100ms TTL. -/
def exStale : LRU Nat Nat :=
  { max := none
    lengthCalculator := fun _ _ => 1
    allowStale := true
    maxAge := 100
    hasDispose := true
    noDisposeOnSet := false
    updateAgeOnGet := false
    lruList := [⟨0, 1, 1, 0, 100⟩]
    cacheKeys := [0]
    totalLength := 1 }

/-- A unit-weight capacity-10 cache holding a mix of expiring and
never-expiring entries: key 2 expires at 400, key 1 at 150, key 0
never. -/
def exRound : LRU Nat Nat :=
  { max := some 10
    lengthCalculator := fun _ _ => 1
    allowStale := false
    maxAge := 0
    hasDispose := false
    noDisposeOnSet := false
    updateAgeOnGet := false
    lruList := [⟨2, 12, 1, 100, 300⟩, ⟨1, 11, 1, 100, 50⟩, ⟨0, 10, 1, 0, 0⟩]
    cacheKeys := [2, 1, 0]
    totalLength := 3 }

/-- A cache whose cache-wide TTL is 5 but which still holds the
sentinel entry `⟨0, 1, 1, 0, 0⟩` — the state reached by inserting key
0 while the TTL was disabled and then enabling `maxAge = 5` through
the setter. -/
def exSentinel : LRU Nat Nat :=
  { max := some 10
    lengthCalculator := fun _ _ => 1
    allowStale := false
    maxAge := 5
    hasDispose := false
    noDisposeOnSet := false
    updateAgeOnGet := false
    lruList := [⟨0, 1, 1, 0, 0⟩]
    cacheKeys := [0]
    totalLength := 1 }

/-- An empty cache configured exactly like `exSentinel`. -/
def exSentinelFresh : LRU Nat Nat :=
  { max := some 10
    lengthCalculator := fun _ _ => 1
    allowStale := false
    maxAge := 5
    hasDispose := false
    noDisposeOnSet := false
    updateAgeOnGet := false
    lruList := []
    cacheKeys := []
    totalLength := 0 }

namespace LRU

/-- The entry that `load` recreates at time `t2` from the dumped
record `r` into a cache configured like `s0`, in case it is inserted. -/
def loadedEntry (s0 : LRU K V) (t2 : Int) (r : K × V × Int) : LEntry K V :=
  if r.2.2 = 0 then
    ⟨r.1, r.2.1, s0.lengthCalculator r.2.1 r.1, effNow t2 s0.maxAge, s0.maxAge⟩
  else
    ⟨r.1, r.2.1, s0.lengthCalculator r.2.1 r.1, t2, r.2.2 - t2⟩

/-- Whether `load` at time `t2` inserts the dumped record `r` rather
than silently dropping it as already expired. -/
def survives (t2 : Int) (r : K × V × Int) : Bool :=
  decide (r.2.2 = 0) || decide (r.2.2 - t2 > 0)

/-- The weight `load` recomputes for the record `r`. -/
def recWeight (s0 : LRU K V) (r : K × V × Int) : Int :=
  s0.lengthCalculator r.2.1 r.1

/-- The replay loop of `load` in right-fold form: the records are
processed last-first, each through `loadStep`, starting from `base`
(the state right after the initial `reset`). -/
def replayRecords (t2 : Int) (base : LRU K V × List (K × V))
    (rl : List (K × V × Int)) : LRU K V × List (K × V) :=
  rl.foldr (fun r acc => loadStep t2 acc r) base

end LRU

end Invariants

/-! ### Helper lemmas about the list primitives -/

section ListLemmas

variable {K V : Type} [DecidableEq K]

namespace LRU

theorem findEntry_key {l : List (LEntry K V)} {k : K} {e : LEntry K V}
    (h : findEntry l k = some e) : e.key = k := by
  induction l with
  | nil => simp [findEntry] at h
  | cons a rest ih =>
    by_cases hk : a.key = k
    · simp [findEntry, hk] at h; subst h; exact hk
    · simp [findEntry, hk] at h; exact ih h

theorem findEntry_mem {l : List (LEntry K V)} {k : K} {e : LEntry K V}
    (h : findEntry l k = some e) : e ∈ l := by
  induction l with
  | nil => simp [findEntry] at h
  | cons a rest ih =>
    by_cases hk : a.key = k
    · simp [findEntry, hk] at h; subst h; exact List.mem_cons_self _ _
    · simp [findEntry, hk] at h; exact List.mem_cons_of_mem _ (ih h)

theorem findEntry_eq_none {l : List (LEntry K V)} {k : K} :
    findEntry l k = none ↔ k ∉ l.map (fun e => e.key) := by
  induction l with
  | nil => simp [findEntry]
  | cons a rest ih =>
    by_cases hk : a.key = k
    · simp [findEntry, hk]
    · simp [findEntry, hk, ih, Ne.symm hk]

theorem findEntry_of_mem {l : List (LEntry K V)} {e : LEntry K V}
    (nd : (l.map (fun e => e.key)).Nodup) (he : e ∈ l) :
    findEntry l e.key = some e := by
  induction l with
  | nil => simp at he
  | cons a rest ih =>
    rcases List.mem_cons.1 he with rfl | hmem
    · simp [findEntry]
    · have hne : a.key ≠ e.key := by
        simp only [List.map_cons, List.nodup_cons] at nd
        intro hcontra
        exact nd.1 (hcontra ▸ List.mem_map_of_mem (fun e => e.key) hmem)
      simp only [List.map_cons, List.nodup_cons] at nd
      simp [findEntry, hne, ih nd.2 hmem]

theorem map_key_removeKey (l : List (LEntry K V)) (k : K) :
    (removeKey l k).map (fun e => e.key) = (l.map (fun e => e.key)).erase k := by
  induction l with
  | nil => simp [removeKey]
  | cons a rest ih =>
    by_cases hk : a.key = k
    · simp [removeKey, hk, List.erase_cons]
    · simp [removeKey, hk, List.erase_cons, ih]

theorem removeKey_of_not_mem {l : List (LEntry K V)} {k : K}
    (h : k ∉ l.map (fun e => e.key)) : removeKey l k = l := by
  induction l with
  | nil => rfl
  | cons a rest ih =>
    simp only [List.map_cons, List.mem_cons] at h
    push_neg at h
    simp [removeKey, Ne.symm h.1, ih h.2]

theorem removeKey_append_of_not_mem {l1 : List (LEntry K V)} (l2 : List (LEntry K V))
    {k : K} (h : k ∉ l1.map (fun e => e.key)) :
    removeKey (l1 ++ l2) k = l1 ++ removeKey l2 k := by
  induction l1 with
  | nil => simp
  | cons a rest ih =>
    simp only [List.map_cons, List.mem_cons] at h
    push_neg at h
    simp [removeKey, Ne.symm h.1, ih h.2]

theorem sum_removeKey {l : List (LEntry K V)} {k : K} {e : LEntry K V}
    (h : findEntry l k = some e) :
    ((removeKey l k).map (fun e => e.length)).sum =
      (l.map (fun e => e.length)).sum - e.length := by
  induction l with
  | nil => simp [findEntry] at h
  | cons a rest ih =>
    by_cases hk : a.key = k
    · simp only [findEntry, hk, if_pos rfl] at h
      cases h
      simp [removeKey, hk]
    · simp only [findEntry, hk, if_neg hk] at h
      simp [removeKey, hk, ih h]
      ring

theorem map_key_replaceEntry {l : List (LEntry K V)} {k : K} {e' : LEntry K V}
    (h : e'.key = k) :
    (replaceEntry l k e').map (fun e => e.key) = l.map (fun e => e.key) := by
  induction l with
  | nil => rfl
  | cons a rest ih =>
    by_cases hk : a.key = k
    · simp [replaceEntry, hk, h]
    · simp [replaceEntry, hk, ih]

theorem sum_replaceEntry {l : List (LEntry K V)} {k : K} {e e' : LEntry K V}
    (h : findEntry l k = some e) :
    ((replaceEntry l k e').map (fun x => x.length)).sum =
      (l.map (fun x => x.length)).sum - e.length + e'.length := by
  induction l with
  | nil => simp [findEntry] at h
  | cons a rest ih =>
    by_cases hk : a.key = k
    · simp only [findEntry, hk, if_pos rfl] at h
      cases h
      simp [replaceEntry, hk]
      ring
    · simp only [findEntry, hk, if_neg hk] at h
      simp [replaceEntry, hk, ih h]
      ring

end LRU

end ListLemmas

/-! ### Preservation of the structural invariant -/

section WFLemmas

variable {K V : Type} [DecidableEq K]

namespace LRU

theorem sameConfig_refl (a : LRU K V) : sameConfig a a := by
  simp [sameConfig]

theorem sameConfig_trans {a b c : LRU K V} (h1 : sameConfig a b)
    (h2 : sameConfig b c) : sameConfig a c := by
  obtain ⟨x1, x2, x3, x4, x5, x6, x7⟩ := h1
  obtain ⟨y1, y2, y3, y4, y5, y6, y7⟩ := h2
  exact ⟨x1.trans y1, x2.trans y2, x3.trans y3, x4.trans y4,
    x5.trans y5, x6.trans y6, x7.trans y7⟩

theorem delEntry_sameConfig (st : LRU K V) (hit : LEntry K V) :
    sameConfig (delEntry st hit).1 st := by
  simp [delEntry, sameConfig]

theorem filter_ne_eq_erase {l : List K} (nd : l.Nodup) (k : K) :
    l.filter (fun x => !decide (x = k)) = l.erase k :=
  (nd.erase_eq_filter k).symm

theorem delEntry_WF {st : LRU K V} {hit : LEntry K V} (hwf : WF st)
    (hmem : hit ∈ st.lruList) : WF (delEntry st hit).1 := by
  obtain ⟨nd, hperm, hsum⟩ := hwf
  have ndl : (st.lruList.map (fun e => e.key)).Nodup := nd.perm hperm
  have hfind : findEntry st.lruList hit.key = some hit := findEntry_of_mem ndl hmem
  refine ⟨nd.filter _, ?_, ?_⟩
  · show (st.cacheKeys.filter fun x => !decide (x = hit.key)).Perm
      ((removeKey st.lruList hit.key).map fun e => e.key)
    rw [map_key_removeKey, filter_ne_eq_erase nd]
    exact hperm.erase hit.key
  · show st.totalLength - hit.length = ((removeKey st.lruList hit.key).map fun e => e.length).sum
    rw [sum_removeKey hfind, hsum]

theorem trimWalk_spec (r : List (LEntry K V)) :
    ∀ st : LRU K V, WF st → st.lruList = r.reverse →
      WF (trimWalk st r).1 ∧ sameConfig (trimWalk st r).1 st ∧
      ∃ n, n ≤ r.length ∧
        (trimWalk st r).1.lruList = (r.drop n).reverse ∧
        (trimWalk st r).2 =
          (if st.hasDispose then (r.take n).map (fun e => (e.key, e.value)) else []) ∧
        (gtMax (trimWalk st r).1.totalLength (trimWalk st r).1.max = false ∨
          (trimWalk st r).1.lruList = []) := by
  induction r with
  | nil =>
    intro st hwf hl
    refine ⟨hwf, sameConfig_refl st, 0, by simp, ?_, by simp [trimWalk], Or.inr hl⟩
    simpa [trimWalk] using hl
  | cons e rest ih =>
    intro st hwf hl
    by_cases hover : gtMax st.totalLength st.max = true
    · have hmem : e ∈ st.lruList := by rw [hl]; simp
      have hwf' : WF (delEntry st e).1 := delEntry_WF hwf hmem
      have ndl : (st.lruList.map (fun e => e.key)).Nodup := hwf.1.perm hwf.2.1
      have hnotm : e.key ∉ (rest.reverse.map (fun x => x.key)) := by
        intro hin
        rw [hl] at ndl
        simp only [List.reverse_cons, List.map_append, List.map_cons, List.map_nil,
          List.nodup_append] at ndl
        exact ndl.2.2 hin (by simp)
      have hl' : (delEntry st e).1.lruList = rest.reverse := by
        show removeKey st.lruList e.key = rest.reverse
        rw [hl]
        simp only [List.reverse_cons]
        rw [removeKey_append_of_not_mem _ hnotm]
        simp [removeKey]
      obtain ⟨wfq, cfgq, n, hn, hlist, htrace, hterm⟩ := ih (delEntry st e).1 hwf' hl'
      have hres : trimWalk st (e :: rest) =
          ((trimWalk (delEntry st e).1 rest).1,
           (delEntry st e).2 ++ (trimWalk (delEntry st e).1 rest).2) := by
        simp [trimWalk, hover]
      rw [hres]
      refine ⟨wfq, sameConfig_trans cfgq (delEntry_sameConfig st e), n + 1,
        by simpa using Nat.succ_le_succ hn, by simpa using hlist, ?_, hterm⟩
      have hD : (delEntry st e).1.hasDispose = st.hasDispose := rfl
      rw [htrace, hD]
      show (if st.hasDispose then [(e.key, e.value)] else []) ++
          (if st.hasDispose then (rest.take n).map (fun e => (e.key, e.value)) else []) = _
      by_cases hd : st.hasDispose = true <;> simp [hd]
    · have hov : gtMax st.totalLength st.max = false := by
        simpa using hover
      have hres : trimWalk st (e :: rest) = (st, []) := by
        simp [trimWalk, hov]
      rw [hres]
      exact ⟨hwf, sameConfig_refl st, 0, by simp, by simpa using hl, by simp, Or.inl hov⟩

theorem trim_spec {st : LRU K V} (hwf : WF st) :
    WF (trim st).1 ∧ sameConfig (trim st).1 st ∧
    ∃ m, m ≤ st.lruList.length ∧
      (trim st).1.lruList = st.lruList.take m ∧
      (trim st).2 =
        (if st.hasDispose then
          ((st.lruList.drop m).reverse).map (fun e => (e.key, e.value)) else []) ∧
      (gtMax (trim st).1.totalLength (trim st).1.max = false ∨
        (trim st).1.lruList = []) := by
  by_cases hover : gtMax st.totalLength st.max = true
  · have hres : trim st = trimWalk st st.lruList.reverse := by simp [trim, hover]
    obtain ⟨wfq, cfgq, n, hn, hlist, htrace, hterm⟩ :=
      trimWalk_spec st.lruList.reverse st hwf (st.lruList.reverse_reverse).symm
    rw [List.length_reverse] at hn
    rw [hres]
    refine ⟨wfq, cfgq, st.lruList.length - n, by omega, ?_, ?_, hterm⟩
    · rw [hlist, List.reverse_drop]
      simp
    · rw [htrace]
      have : st.lruList.reverse.take n = (st.lruList.drop (st.lruList.length - n)).reverse := by
        rw [List.reverse_drop]
        congr 1
        omega
      rw [this]
  · have hov : gtMax st.totalLength st.max = false := by simpa using hover
    have hres : trim st = (st, []) := by simp [trim, hov]
    rw [hres]
    exact ⟨hwf, sameConfig_refl st, st.lruList.length, le_refl _,
      (st.lruList.take_length).symm, by simp, Or.inl hov⟩

end LRU

end WFLemmas

section OpLemmas

variable {K V : Type} [DecidableEq K]

namespace LRU

theorem cacheGet_eq_some {st : LRU K V} {key : K} {hit : LEntry K V}
    (h : cacheGet st key = some hit) :
    key ∈ st.cacheKeys ∧ findEntry st.lruList key = some hit := by
  unfold cacheGet at h
  by_cases hk : key ∈ st.cacheKeys
  · exact ⟨hk, by simpa [hk] using h⟩
  · simp [hk] at h

theorem cacheGet_eq_none_of_WF {st : LRU K V} {key : K} (hwf : WF st)
    (h : cacheGet st key = none) :
    key ∉ st.cacheKeys ∧ key ∉ st.lruList.map (fun e => e.key) := by
  unfold cacheGet at h
  by_cases hk : key ∈ st.cacheKeys
  · simp only [hk, if_pos] at h
    have := findEntry_eq_none.1 h
    exact ⟨fun _ => this ((hwf.2.1.mem_iff).1 hk), this⟩
  · constructor
    · exact hk
    · intro hin
      exact hk ((hwf.2.1.mem_iff).2 hin)

theorem mem_cacheKeys_of_cacheGet_isSome {st : LRU K V} {key : K} {hit : LEntry K V}
    (hwf : WF st) (h : cacheGet st key = some hit) :
    key ∈ st.lruList.map (fun e => e.key) := by
  exact (hwf.2.1.mem_iff).1 (cacheGet_eq_some h).1

/-- After `del` removes the node for `key`, the key is gone from the
map, hence from any later lookup. -/
theorem not_mem_cacheKeys_delEntry (st : LRU K V) (hit : LEntry K V) :
    hit.key ∉ (delEntry st hit).1.cacheKeys := by
  simp [delEntry]

theorem cacheGet_delEntry_self (st : LRU K V) (hit : LEntry K V) :
    cacheGet (delEntry st hit).1 hit.key = none := by
  unfold cacheGet
  simp [not_mem_cacheKeys_delEntry st hit]

theorem has_eq_false_of_cacheGet_none {st : LRU K V} {key : K} (now : Int)
    (h : cacheGet st key = none) : has st now key = false := by
  simp [has, h]

/-- Shape of `get` on a stale hit: the node is deleted (disposing it),
and the stale value is returned iff `allowStale`. -/
theorem getOp_stale_spec {st : LRU K V} {key : K} {hit : LEntry K V} {now : Int}
    (hc : cacheGet st key = some hit) (hst : isStale st now hit = true)
    (doUse : Bool) :
    getOp st now key doUse =
      ((if st.allowStale then some hit.value else none),
       (delEntry st hit).1,
       (if st.hasDispose then [(hit.key, hit.value)] else [])) := by
  unfold getOp
  rw [hc]
  by_cases ha : st.allowStale = true <;> simp [hst, ha, del, delEntry]

theorem getOp_WF {st : LRU K V} (hwf : WF st) (now : Int) (key : K) (doUse : Bool) :
    WF (getOp st now key doUse).2.1 ∧ sameConfig (getOp st now key doUse).2.1 st := by
  unfold getOp
  cases hc : cacheGet st key with
  | none => exact ⟨hwf, sameConfig_refl st⟩
  | some hit =>
    obtain ⟨hk, hfind⟩ := cacheGet_eq_some hc
    have hkey : hit.key = key := findEntry_key hfind
    have hmem : hit ∈ st.lruList := findEntry_mem hfind
    by_cases hst : isStale st now hit = true
    · have h1 : WF (delEntry st hit).1 := delEntry_WF hwf hmem
      have h2 := delEntry_sameConfig st hit
      by_cases ha : st.allowStale = true <;> simp [hst, ha, del] <;> exact ⟨h1, h2⟩
    · have hst' : isStale st now hit = false := by simpa using hst
      cases doUse with
      | false => simp [hst']; exact ⟨hwf, sameConfig_refl st⟩
      | true =>
        simp only [hst', Bool.false_eq_true, if_false, if_true]
        constructor
        · obtain ⟨nd, hperm, hsum⟩ := hwf
          have hlen : (if st.updateAgeOnGet then { hit with now := now } else hit).length
              = hit.length := by
            by_cases hu : st.updateAgeOnGet = true <;> simp [hu]
          have hkey2 : (if st.updateAgeOnGet then { hit with now := now } else hit).key
              = key := by
            by_cases hu : st.updateAgeOnGet = true <;> simp [hu, hkey]
          refine ⟨nd, ?_, ?_⟩
          · show st.cacheKeys.Perm (List.map (fun e => e.key) (_ :: removeKey st.lruList key))
            rw [List.map_cons, hkey2, map_key_removeKey]
            have hkin : key ∈ st.lruList.map (fun e => e.key) := by
              rw [← hkey]
              exact List.mem_map_of_mem _ hmem
            exact hperm.trans (List.perm_cons_erase hkin)
          · show st.totalLength =
              (List.map (fun e => e.length) (_ :: removeKey st.lruList key)).sum
            rw [List.map_cons, List.sum_cons, hlen, sum_removeKey hfind, hsum]
            ring
        · simp [sameConfig]
    
end LRU

end OpLemmas

section SetLemmas

variable {K V : Type} [DecidableEq K]

namespace LRU

/-- The oversized-`set` path when the key is already present:
`del(this, this[CACHE].get(key)); return false`. -/
theorem setOp_oversized_present {st : LRU K V} {key : K} {item : LEntry K V}
    (now : Int) (value : V) (mAge : Option Int)
    (hc : cacheGet st key = some item)
    (hover : gtMax (st.lengthCalculator value key) st.max = true) :
    setOp st now key value mAge =
      (false, (delEntry st item).1,
       if st.hasDispose then [(item.key, item.value)] else []) := by
  unfold setOp
  rw [hc]
  simp [hover, hc, del, delEntry]

/-- The oversized-`set` path when the key is absent: dispose the
rejected pair, return false, state untouched. -/
theorem setOp_oversized_absent {st : LRU K V} {key : K}
    (now : Int) (value : V) (mAge : Option Int)
    (hc : cacheGet st key = none)
    (hover : gtMax (st.lengthCalculator value key) st.max = true) :
    setOp st now key value mAge =
      (false, st, if st.hasDispose then [(key, value)] else []) := by
  unfold setOp
  rw [hc]
  simp [hover]

/-- The fresh-insert path of `set`. -/
theorem setOp_insert {st : LRU K V} {key : K}
    (now : Int) (value : V) (mAge : Option Int)
    (hc : cacheGet st key = none)
    (hover : gtMax (st.lengthCalculator value key) st.max = false) :
    setOp st now key value mAge =
      (true, (trim (insertState st now key value mAge)).1,
       (trim (insertState st now key value mAge)).2) := by
  unfold setOp
  rw [hc]
  simp [hover, insertState]

/-- The overwrite path of `set` when the new weight fits. -/
theorem setOp_overwrite {st : LRU K V} {key : K} {item : LEntry K V}
    (now : Int) (value : V) (mAge : Option Int)
    (hc : cacheGet st key = some item)
    (hover : gtMax (st.lengthCalculator value key) st.max = false) :
    setOp st now key value mAge =
      (true,
       (trim (getOp (overwriteState st now key value mAge item) now key true).2.1).1,
       (if st.hasDispose ∧ ¬st.noDisposeOnSet then [(key, item.value)] else []) ++
        (getOp (overwriteState st now key value mAge item) now key true).2.2 ++
        (trim (getOp (overwriteState st now key value mAge item) now key true).2.1).2) := by
  unfold setOp
  rw [hc]
  simp [hover, overwriteState, overwriteEntry]

end LRU

end SetLemmas

section MoreWF

variable {K V : Type} [DecidableEq K]

namespace LRU

theorem overwriteState_WF {st : LRU K V} {key : K} {item : LEntry K V}
    (hwf : WF st) (hc : cacheGet st key = some item)
    (now : Int) (value : V) (mAge : Option Int) :
    WF (overwriteState st now key value mAge item) := by
  obtain ⟨nd, hperm, hsum⟩ := hwf
  have hfind : findEntry st.lruList key = some item := (cacheGet_eq_some hc).2
  have hkey : item.key = key := findEntry_key hfind
  refine ⟨nd, ?_, ?_⟩
  · show st.cacheKeys.Perm (List.map (fun e => e.key) (replaceEntry st.lruList key _))
    rw [map_key_replaceEntry (by simp [overwriteEntry, hkey])]
    exact hperm
  · show st.totalLength + (st.lengthCalculator value key - item.length) =
      (List.map (fun e => e.length) (replaceEntry st.lruList key _)).sum
    rw [sum_replaceEntry hfind, hsum]
    simp [overwriteEntry]
    ring

theorem insertState_WF {st : LRU K V} {key : K}
    (hwf : WF st) (hc : cacheGet st key = none)
    (now : Int) (value : V) (mAge : Option Int) :
    WF (insertState st now key value mAge) := by
  obtain ⟨hk, hkl⟩ := cacheGet_eq_none_of_WF hwf hc
  obtain ⟨nd, hperm, hsum⟩ := hwf
  refine ⟨?_, ?_, ?_⟩
  · exact List.nodup_cons.2 ⟨hk, nd⟩
  · show (key :: st.cacheKeys).Perm (List.map (fun e => e.key) (_ :: st.lruList))
    simpa using hperm.cons key
  · show st.totalLength + st.lengthCalculator value key =
      (List.map (fun e => e.length) (_ :: st.lruList)).sum
    rw [List.map_cons, List.sum_cons, hsum]
    ring

theorem setOp_WF {st : LRU K V} (hwf : WF st) (now : Int) (key : K) (value : V)
    (mAge : Option Int) :
    WF (setOp st now key value mAge).2.1 ∧
      sameConfig (setOp st now key value mAge).2.1 st := by
  cases hc : cacheGet st key with
  | some item =>
    by_cases hover : gtMax (st.lengthCalculator value key) st.max = true
    · rw [setOp_oversized_present now value mAge hc hover]
      have hmem := findEntry_mem (cacheGet_eq_some hc).2
      exact ⟨delEntry_WF hwf hmem, delEntry_sameConfig st item⟩
    · have hov : gtMax (st.lengthCalculator value key) st.max = false := by
        simpa using hover
      rw [setOp_overwrite now value mAge hc hov]
      have hwf1 := overwriteState_WF hwf hc now value mAge
      have hcfg1 : sameConfig (overwriteState st now key value mAge item) st := by
        simp [overwriteState, sameConfig]
      obtain ⟨hwf2, hcfg2⟩ := getOp_WF hwf1 now key true
      obtain ⟨hwf3, hcfg3, _⟩ := trim_spec hwf2
      exact ⟨hwf3, sameConfig_trans (sameConfig_trans hcfg3 hcfg2) hcfg1⟩
  | none =>
    by_cases hover : gtMax (st.lengthCalculator value key) st.max = true
    · rw [setOp_oversized_absent now value mAge hc hover]
      exact ⟨hwf, sameConfig_refl st⟩
    · have hov : gtMax (st.lengthCalculator value key) st.max = false := by
        simpa using hover
      rw [setOp_insert now value mAge hc hov]
      have hwf1 := insertState_WF hwf hc now value mAge
      have hcfg1 : sameConfig (insertState st now key value mAge) st := by
        simp [insertState, sameConfig]
      obtain ⟨hwf2, hcfg2, _⟩ := trim_spec hwf1
      exact ⟨hwf2, sameConfig_trans hcfg2 hcfg1⟩

theorem delOp_WF {st : LRU K V} (hwf : WF st) (key : K) :
    WF (delOp st key).1 ∧ sameConfig (delOp st key).1 st := by
  unfold delOp
  cases hc : cacheGet st key with
  | none => exact ⟨hwf, sameConfig_refl st⟩
  | some hit =>
    have hmem := findEntry_mem (cacheGet_eq_some hc).2
    exact ⟨delEntry_WF hwf hmem, delEntry_sameConfig st hit⟩

theorem pop_WF {st : LRU K V} (hwf : WF st) :
    WF (pop st).2.1 ∧ sameConfig (pop st).2.1 st := by
  unfold pop
  cases hl : st.lruList.getLast? with
  | none => exact ⟨hwf, sameConfig_refl st⟩
  | some hit =>
    have hmem : hit ∈ st.lruList := List.mem_of_mem_getLast? hl
    exact ⟨delEntry_WF hwf hmem, delEntry_sameConfig st hit⟩

theorem reset_WF (st : LRU K V) : WF (reset st).1 ∧ sameConfig (reset st).1 st := by
  constructor
  · exact ⟨List.nodup_nil, List.Perm.refl _, rfl⟩
  · simp [reset, sameConfig]

theorem setMax_WF {st : LRU K V} (hwf : WF st) (mL : Int) :
    WF (setMax st mL).1 := by
  have hwf1 : WF { st with max := normMax mL } := hwf
  exact (trim_spec hwf1).1

theorem setMaxAge_WF {st : LRU K V} (hwf : WF st) (mA : Int) :
    WF (setMaxAge st mA).1 := by
  have hwf1 : WF { st with maxAge := mA } := hwf
  exact (trim_spec hwf1).1

theorem loadStep_WF {acc : LRU K V × List (K × V)} (hwf : WF acc.1)
    (now : Int) (rec : K × V × Int) : WF (loadStep now acc rec).1 := by
  unfold loadStep
  by_cases he : rec.2.2 = 0
  · simp only [he, if_pos rfl]
    exact (setOp_WF hwf now rec.1 rec.2.1 none).1
  · simp only [he, if_neg he]
    by_cases hm : rec.2.2 - now > 0
    · simp only [hm, if_pos hm]
      exact (setOp_WF hwf now rec.1 rec.2.1 (some (rec.2.2 - now))).1
    · simp only [hm, if_neg hm]
      exact hwf

theorem foldl_loadStep_WF (now : Int) (arr : List (K × V × Int)) :
    ∀ acc : LRU K V × List (K × V), WF acc.1 →
      WF (arr.foldl (loadStep now) acc).1 := by
  induction arr with
  | nil => intro acc h; exact h
  | cons a rest ih =>
    intro acc h
    exact ih (loadStep now acc a) (loadStep_WF h now a)

theorem load_WF {st : LRU K V} (now : Int) (arr : List (K × V × Int)) :
    WF (load st now arr).1 := by
  unfold load
  exact foldl_loadStep_WF now arr.reverse (reset st) (reset_WF st).1

theorem prune_WF {st : LRU K V} (hwf : WF st) (now : Int) :
    WF (prune st now).1 := by
  unfold prune
  have main : ∀ (ks : List K) (acc : LRU K V × List (K × V)), WF acc.1 →
      WF (ks.foldl (fun acc k =>
        let p := getOp acc.1 now k false
        (p.2.1, acc.2 ++ p.2.2)) acc).1 := by
    intro ks
    induction ks with
    | nil => intro acc h; exact h
    | cons a rest ih =>
      intro acc h
      exact ih _ (getOp_WF h now a false).1
  exact main st.cacheKeys.reverse (st, []) hwf

theorem newCache_WF (max : Int) (lc : V → K → Int) (stale : Bool) (mAge : Int)
    (dispo noDispSet updAge : Bool) :
    WF (newCache max lc stale mAge dispo noDispSet updAge) :=
  ⟨List.nodup_nil, List.Perm.refl _, rfl⟩

end LRU

end MoreWF

section IterWF

variable {K V : Type} [DecidableEq K]

namespace LRU

theorem mem_removeKey_of_ne {l : List (LEntry K V)} {e : LEntry K V} {k : K}
    (hmem : e ∈ l) (hne : e.key ≠ k) : e ∈ removeKey l k := by
  induction l with
  | nil => simp at hmem
  | cons a rest ih =>
    rcases List.mem_cons.1 hmem with rfl | h
    · have hk : ¬(e.key = k) := hne
      simp [removeKey, hk]
    · by_cases hk : a.key = k
      · simpa [removeKey, hk] using h
      · simp only [removeKey, hk, if_neg hk]
        exact List.mem_cons.2 (Or.inr (ih h))

/-- A `forEachStep` either leaves the state alone or deletes exactly
the visited node. -/
theorem forEachStep_cases (st : LRU K V) (now : Int) (e : LEntry K V) :
    (forEachStep st now e).1 = st ∨ (forEachStep st now e).1 = (delEntry st e).1 := by
  unfold forEachStep
  by_cases hs : isStale st now e = true
  · by_cases ha : st.allowStale = true <;> simp [hs, ha]
  · have hs' : isStale st now e = false := by simpa using hs
    simp [hs']

theorem forEachFold_WF (now : Int) (rem : List (LEntry K V)) :
    ∀ (st : LRU K V) (t1 : List (K × V)) (t2 : List (V × K)), WF st →
      (rem.map (fun e => e.key)).Nodup →
      (∀ e ∈ rem, e ∈ st.lruList) →
      WF ((rem.foldl (fun acc e =>
        let p := forEachStep acc.1 now e
        (p.1, acc.2.1 ++ p.2.1, acc.2.2 ++ p.2.2)) (st, t1, t2)).1) := by
  induction rem with
  | nil => intro st t1 t2 hwf _ _; exact hwf
  | cons e rest ih =>
    intro st t1 t2 hwf hnd hmem
    rw [List.map_cons, List.nodup_cons] at hnd
    have he : e ∈ st.lruList := hmem e (List.mem_cons_self e rest)
    have hwf' : WF (forEachStep st now e).1 := by
      rcases forEachStep_cases st now e with hc | hc
      · rw [hc]; exact hwf
      · rw [hc]; exact delEntry_WF hwf he
    have hmem' : ∀ x ∈ rest, x ∈ (forEachStep st now e).1.lruList := by
      intro x hx
      have hxne : x.key ≠ e.key := by
        intro hcontra
        exact hnd.1 (hcontra ▸ List.mem_map_of_mem (fun e => e.key) hx)
      rcases forEachStep_cases st now e with hc | hc
      · rw [hc]; exact hmem x (List.mem_cons_of_mem e hx)
      · rw [hc]
        show x ∈ removeKey st.lruList e.key
        exact mem_removeKey_of_ne (hmem x (List.mem_cons_of_mem e hx)) hxne
    exact ih (forEachStep st now e).1 _ _ hwf' hnd.2 hmem'

theorem forEach_WF {st : LRU K V} (hwf : WF st) (now : Int) :
    WF (forEach st now).1 := by
  unfold forEach
  exact forEachFold_WF now st.lruList st [] [] hwf (hwf.1.perm hwf.2.1)
    (fun e he => he)

theorem rforEach_WF {st : LRU K V} (hwf : WF st) (now : Int) :
    WF (rforEach st now).1 := by
  unfold rforEach
  apply forEachFold_WF now st.lruList.reverse st [] [] hwf
  · rw [List.map_reverse, List.nodup_reverse]
    exact hwf.1.perm hwf.2.1
  · intro e he
    exact List.mem_reverse.1 he

theorem setLengthCalculator_WF {st : LRU K V} (hwf : WF st)
    (lC : V → K → Int) (isSame : Bool) :
    WF (setLengthCalculator st lC isSame).1 := by
  unfold setLengthCalculator
  cases isSame with
  | true =>
    show WF (trim st).1
    exact (trim_spec hwf).1
  | false =>
    show WF (trim _).1
    apply (trim_spec ?_).1
    refine ⟨hwf.1, ?_, rfl⟩
    show st.cacheKeys.Perm ((st.lruList.map
      (fun hit => { hit with length := lC hit.value hit.key })).map (fun e => e.key))
    rw [List.map_map]
    exact hwf.2.1

end LRU

end IterWF

/-! ### The claims -/

section Claims

open LRU

/-- C1: for every cache and every key already present in it,
`set(key, value)` with a computed weight exceeding `max` removes the
previously stored entry for that key — the key is afterwards absent
from both the key map and the recency list — and returns `false`
without inserting the new value (the embedding is total, so no
exception can arise). -/
theorem C1_oversized_replacement_removes_old {K V : Type} [DecidableEq K]
    (st : LRU K V) (now : Int) (key : K) (value : V) (mAge : Option Int)
    (item : LEntry K V) (hwf : WF st)
    (hc : cacheGet st key = some item)
    (hover : gtMax (st.lengthCalculator value key) st.max = true) :
    (setOp st now key value mAge).1 = false ∧
    key ∉ (setOp st now key value mAge).2.1.cacheKeys ∧
    ∀ e ∈ (setOp st now key value mAge).2.1.lruList, e.key ≠ key := by
  have hkey : item.key = key := findEntry_key (cacheGet_eq_some hc).2
  have ndl : (st.lruList.map (fun e => e.key)).Nodup := hwf.1.perm hwf.2.1
  rw [setOp_oversized_present now value mAge hc hover]
  refine ⟨rfl, ?_, ?_⟩
  · show key ∉ (delEntry st item).1.cacheKeys
    simp [delEntry, hkey]
  · intro e he hek
    have hmem : e.key ∈ (removeKey st.lruList item.key).map (fun e => e.key) :=
      List.mem_map_of_mem _ he
    rw [map_key_removeKey, hkey] at hmem
    rw [hek] at hmem
    exact (List.Nodup.mem_erase_iff ndl).1 hmem |>.1 rfl

theorem C1_oversized_replacement_removes_old_witness :
    (setOp exPresent 0 0 5 none).1 = false ∧
    0 ∉ (setOp exPresent 0 0 5 none).2.1.cacheKeys ∧
    ∀ e ∈ (setOp exPresent 0 0 5 none).2.1.lruList, e.key ≠ 0 :=
  C1_oversized_replacement_removes_old exPresent 0 0 5 none ⟨0, 1, 1, 0, 0⟩
    (by decide) (by decide) (by decide)

/-- C2 counterexample: on `exPresent` (key 0 stored with value 1),
the oversized `set(0, 5)` invokes dispose with the OLD stored pair
`(0, 1)`, not with the rejected new pair `(0, 5)` — refuting the claim
that the callback receives the new value when the key is present. -/
theorem C2_counterexample_dispose_gets_old_value :
    (setOp exPresent 0 0 5 none).1 = false ∧
    (setOp exPresent 0 0 5 none).2.2 = [(0, 1)] ∧
    (0, 5) ∉ (setOp exPresent 0 0 5 none).2.2 := by
  decide

/-- C2 amended: for every oversized `set(key, value)` the dispose
callback (if configured) is invoked exactly once before `set` returns
`false`; when the key is absent it receives the rejected pair
`(key, value)`, but when the key is already present it receives the
OLD stored pair, via the `del` of the previous entry. -/
theorem C2_oversized_set_dispose_amended {K V : Type} [DecidableEq K]
    (st : LRU K V) (now : Int) (key : K) (value : V) (mAge : Option Int)
    (hover : gtMax (st.lengthCalculator value key) st.max = true) :
    (cacheGet st key = none →
      (setOp st now key value mAge).1 = false ∧
      (setOp st now key value mAge).2.2 =
        (if st.hasDispose then [(key, value)] else [])) ∧
    (∀ item, cacheGet st key = some item →
      (setOp st now key value mAge).1 = false ∧
      (setOp st now key value mAge).2.2 =
        (if st.hasDispose then [(item.key, item.value)] else [])) := by
  constructor
  · intro hc
    rw [setOp_oversized_absent now value mAge hc hover]
    exact ⟨rfl, rfl⟩
  · intro item hc
    rw [setOp_oversized_present now value mAge hc hover]
    exact ⟨rfl, rfl⟩

theorem C2_oversized_set_dispose_amended_witness :
    (setOp exPresent 0 0 5 none).1 = false ∧
    (setOp exPresent 0 0 5 none).2.2 = [(0, 1)] := by
  have h := (C2_oversized_set_dispose_amended exPresent 0 0 5 none
    (by decide)).2 ⟨0, 1, 1, 0, 0⟩ (by decide)
  simpa using h

/-- C3: whenever the running total exceeds `max`, `trim` evicts from
the tail of the recency list — the surviving list is a prefix of the
old one — disposing each evicted entry exactly once (tail-first),
until the total fits or the list is empty; concretely, on a
capacity-2 unit-weight cache, `set a; set b; get a; set c` evicts `b`
(disposing it once) and keeps `c` and `a` in that recency order. -/
theorem C3_trim_evicts_lru_tail (K V : Type) [DecidableEq K] :
    (∀ st : LRU K V, WF st →
      ∃ m, m ≤ st.lruList.length ∧
        (trim st).1.lruList = st.lruList.take m ∧
        (trim st).2 =
          (if st.hasDispose then
            ((st.lruList.drop m).reverse).map (fun e => (e.key, e.value)) else []) ∧
        (gtMax (trim st).1.totalLength (trim st).1.max = false ∨
          (trim st).1.lruList = [])) ∧
    ((setOp (getOp (setOp (setOp (unitCache 2 false 0 true) 0 0 1 none).2.1
        0 1 2 none).2.1 0 0 true).2.1 0 2 3 none).2.1.lruList.map
          (fun e => e.key) = [2, 0] ∧
     (setOp (getOp (setOp (setOp (unitCache 2 false 0 true) 0 0 1 none).2.1
        0 1 2 none).2.1 0 0 true).2.1 0 2 3 none).2.2 = [(1, 2)]) := by
  constructor
  · intro st hwf
    obtain ⟨_, _, m, hm, hlist, htrace, hterm⟩ := trim_spec hwf
    exact ⟨m, hm, hlist, htrace, hterm⟩
  · constructor <;> decide

theorem C3_trim_evicts_lru_tail_witness :
    ∃ m, m ≤ exPresent.lruList.length ∧
      (trim exPresent).1.lruList = exPresent.lruList.take m ∧
      (trim exPresent).2 =
        (if exPresent.hasDispose then
          ((exPresent.lruList.drop m).reverse).map (fun e => (e.key, e.value)) else []) ∧
      (gtMax (trim exPresent).1.totalLength (trim exPresent).1.max = false ∨
        (trim exPresent).1.lruList = []) :=
  (C3_trim_evicts_lru_tail Nat Nat).1 exPresent (by decide)

/-- C4: the key map and the recency list always hold exactly the same
keys (hence have equal sizes) and the running total equals the sum of
the stored weights — the `WF` invariant — and every public operation
preserves it, starting from the constructor: `set`, `get`/`peek`,
`del`, `pop`, `reset`, `load`, `prune`, the `max`/`maxAge` setters,
the stale-deleting iterators `forEach`/`rforEach`, and the
`lengthCalculator` setter that rewrites every weight and rebuilds the
total. -/
theorem C4_joint_invariant_preserved (K V : Type) [DecidableEq K] :
    (∀ st : LRU K V, WF st →
      st.cacheKeys.length = st.lruList.length ∧
      (∀ k, k ∈ st.cacheKeys ↔ k ∈ st.lruList.map (fun e => e.key)) ∧
      st.totalLength = (st.lruList.map (fun e => e.length)).sum) ∧
    (∀ max lc stale mAge d n u,
      WF (newCache (K := K) (V := V) max lc stale mAge d n u)) ∧
    (∀ (st : LRU K V) now key value mAge, WF st →
      WF (setOp st now key value mAge).2.1) ∧
    (∀ (st : LRU K V) now key doUse, WF st → WF (getOp st now key doUse).2.1) ∧
    (∀ (st : LRU K V) key, WF st → WF (delOp st key).1) ∧
    (∀ st : LRU K V, WF st → WF (pop st).2.1) ∧
    (∀ st : LRU K V, WF (reset st).1) ∧
    (∀ (st : LRU K V) now arr, WF (load st now arr).1) ∧
    (∀ (st : LRU K V) now, WF st → WF (prune st now).1) ∧
    (∀ (st : LRU K V) mL, WF st → WF (setMax st mL).1) ∧
    (∀ (st : LRU K V) mA, WF st → WF (setMaxAge st mA).1) ∧
    (∀ (st : LRU K V) now, WF st → WF (forEach st now).1) ∧
    (∀ (st : LRU K V) now, WF st → WF (rforEach st now).1) ∧
    (∀ (st : LRU K V) lC isSame, WF st → WF (setLengthCalculator st lC isSame).1) := by
  refine ⟨?_, ?_, ?_, ?_, ?_, ?_, ?_, ?_, ?_, ?_, ?_, ?_, ?_, ?_⟩
  · intro st hwf
    refine ⟨?_, ?_, hwf.2.2⟩
    · rw [hwf.2.1.length_eq, List.length_map]
    · intro k
      exact hwf.2.1.mem_iff
  · intro max lc stale mAge d n u
    exact newCache_WF max lc stale mAge d n u
  · intro st now key value mAge hwf
    exact (setOp_WF hwf now key value mAge).1
  · intro st now key doUse hwf
    exact (getOp_WF hwf now key doUse).1
  · intro st key hwf
    exact (delOp_WF hwf key).1
  · intro st hwf
    exact (pop_WF hwf).1
  · intro st
    exact (reset_WF st).1
  · intro st now arr
    exact load_WF now arr
  · intro st now hwf
    exact prune_WF hwf now
  · intro st mL hwf
    exact setMax_WF hwf mL
  · intro st mA hwf
    exact setMaxAge_WF hwf mA
  · intro st now hwf
    exact forEach_WF hwf now
  · intro st now hwf
    exact rforEach_WF hwf now
  · intro st lC isSame hwf
    exact setLengthCalculator_WF hwf lC isSame

theorem C4_joint_invariant_preserved_witness :
    WF (setOp exPresent 0 3 1 none).2.1 :=
  (C4_joint_invariant_preserved Nat Nat).2.2.1 exPresent 0 3 1 none (by decide)

/-- C5: a stale hit found by `get` or `peek` is always evicted (with a
single dispose call) regardless of `allowStale`, the stale value is
returned iff `allowStale` is set, and the key subsequently reports
`has = false` at any clock. -/
theorem C5_stale_read_evicts {K V : Type} [DecidableEq K]
    (st : LRU K V) (now now2 : Int) (key : K) (hit : LEntry K V) (doUse : Bool)
    (hc : cacheGet st key = some hit) (hst : isStale st now hit = true) :
    (getOp st now key doUse).1 = (if st.allowStale then some hit.value else none) ∧
    (getOp st now key doUse).2.2 = (if st.hasDispose then [(key, hit.value)] else []) ∧
    has (getOp st now key doUse).2.1 now2 key = false := by
  have hkey : hit.key = key := findEntry_key (cacheGet_eq_some hc).2
  rw [getOp_stale_spec hc hst doUse]
  refine ⟨rfl, by rw [hkey], ?_⟩
  apply has_eq_false_of_cacheGet_none
  rw [← hkey]
  exact cacheGet_delEntry_self st hit

theorem C5_stale_read_evicts_witness :
    (getOp exStale 150 0 true).1 = some 1 ∧
    (getOp exStale 150 0 true).2.2 = [(0, 1)] ∧
    has (getOp exStale 150 0 true).2.1 150 0 = false := by
  have h := C5_stale_read_evicts exStale 150 150 0 ⟨0, 1, 1, 0, 100⟩ true
    (by decide) (by decide)
  simpa [exStale] using h

end Claims

section Claims2

open LRU JSVal

namespace LRU

variable {K V : Type} [DecidableEq K]

/-- `trimWalk` only deletes entries, so the configuration survives
unconditionally. -/
theorem trimWalk_sameConfig (r : List (LEntry K V)) :
    ∀ st : LRU K V, sameConfig (trimWalk st r).1 st := by
  induction r with
  | nil => intro st; exact sameConfig_refl st
  | cons e rest ih =>
    intro st
    by_cases hover : gtMax st.totalLength st.max = true
    · have hres : (trimWalk st (e :: rest)).1 = (trimWalk (delEntry st e).1 rest).1 := by
        simp [trimWalk, hover]
      rw [hres]
      exact sameConfig_trans (ih (delEntry st e).1) (delEntry_sameConfig st e)
    · have hov : gtMax st.totalLength st.max = false := by simpa using hover
      have hres : (trimWalk st (e :: rest)).1 = st := by simp [trimWalk, hov]
      rw [hres]
      exact sameConfig_refl st

theorem trim_sameConfig (st : LRU K V) : sameConfig (trim st).1 st := by
  unfold trim
  by_cases hover : gtMax st.totalLength st.max = true
  · simpa [hover] using trimWalk_sameConfig st.lruList.reverse st
  · have hov : gtMax st.totalLength st.max = false := by simpa using hover
    simp only [hov, Bool.false_eq_true, if_false]
    exact sameConfig_refl st

end LRU

/-- C7: the claim says a negative TTL is rejected at configuration
time, but the source only type-checks `maxAge`: the constructor guard
`options.maxAge && typeof options.maxAge !== 'number'` and the setter
guard `typeof mA !== 'number'` both accept the negative number `-5`
without throwing — although the setter's own error message reads
"maxAge must be a non-negative number".  Capacity, by contrast, is
checked for negativity as the claim states. -/
theorem C7_negative_maxAge_not_rejected :
    maxAgeCtorThrows (JSVal.num (-5)) = false ∧
    maxAgeSetterThrows (JSVal.num (-5)) = false ∧
    maxCtorThrows (JSVal.num (-5)) = true ∧
    maxSetterThrows (JSVal.num (-5)) = true := by
  decide

/-- C8: `has(key)` returns true exactly when the key maps to an entry
that is not stale; in the source `has` performs no mutation at all —
it is embedded as a pure function of the state, so no promotion,
eviction, dispose call, or change to any field can occur, even when
the inspected entry is stale. -/
theorem C8_has_is_pure_nonstale_check {K V : Type} [DecidableEq K]
    (st : LRU K V) (now : Int) (key : K) :
    has st now key = true ↔
      ∃ hit, cacheGet st key = some hit ∧ isStale st now hit = false := by
  unfold has
  cases hc : cacheGet st key with
  | none => simp
  | some hit => simp

/-- C9: an entry inserted while no TTL is in effect is created with
the sentinel timestamp `now = 0` (and `maxAge = 0`); if the cache-wide
`maxAge` is later set to a positive value `m`, any such entry tests
stale as soon as the clock exceeds `m` (since `t - 0 > m`), so the
next `get` or `peek` evicts it and the key is gone afterwards. -/
theorem C9_no_ttl_sentinel_backfires {K V : Type} [DecidableEq K]
    (st : LRU K V) (now m t : Int) (key : K) (value : V)
    (hm0 : st.maxAge = 0) (hc : cacheGet st key = none) :
    (insertState st now key value none).lruList.head? =
      some ⟨key, value, st.lengthCalculator value key, 0, 0⟩ ∧
    (gtMax (st.lengthCalculator value key) st.max = false →
      setOp st now key value none =
        (true, (trim (insertState st now key value none)).1,
         (trim (insertState st now key value none)).2)) ∧
    (setMaxAge st m).1.maxAge = m ∧
    (∀ st' : LRU K V, ∀ hit : LEntry K V, st'.maxAge = m → 0 < m → m < t →
      hit.maxAge = 0 → hit.now = 0 → isStale st' t hit = true) ∧
    (∀ st' : LRU K V, ∀ hit : LEntry K V, ∀ doUse : Bool,
      st'.maxAge = m → 0 < m → m < t →
      cacheGet st' key = some hit → hit.maxAge = 0 → hit.now = 0 →
        key ∉ (getOp st' t key doUse).2.1.cacheKeys ∧
        has (getOp st' t key doUse).2.1 t key = false) := by
  refine ⟨?_, ?_, ?_, ?_, ?_⟩
  · simp [insertState, effMaxAge, effNow, hm0]
  · intro hover
    exact setOp_insert now value none hc hover
  · have hcfg := trim_sameConfig ({ st with maxAge := m } : LRU K V)
    exact hcfg.2.2.2.1
  · intro st' hit hm hmpos hmt hma hnow
    simp only [isStale, hma, hnow, hm]
    simp
    omega
  · intro st' hit doUse hm hmpos hmt hcg hma hnow
    have hstale : isStale st' t hit = true := by
      simp only [isStale, hma, hnow, hm]
      simp
      omega
    have hkey : hit.key = key := findEntry_key (cacheGet_eq_some hcg).2
    rw [getOp_stale_spec hcg hstale doUse]
    constructor
    · rw [← hkey]
      exact not_mem_cacheKeys_delEntry st' hit
    · apply has_eq_false_of_cacheGet_none
      rw [← hkey]
      exact cacheGet_delEntry_self st' hit

end Claims2

section Claims3

open LRU

theorem C9_no_ttl_sentinel_backfires_witness :
    (insertState (unitCache 0 false 0 false) 77 0 1 none).lruList.head? =
      some ⟨0, 1, 1, 0, 0⟩ ∧
    (setMaxAge (unitCache 0 false 0 false) 5).1.maxAge = 5 := by
  have h := C9_no_ttl_sentinel_backfires (unitCache 0 false 0 false) 77 5 1000 0 1
    (by decide) (by decide)
  exact ⟨h.1, h.2.2.1⟩

/-- C10: a `max` of 0 — in the constructor as well as in the `max`
setter — is normalised by `mL || Infinity` to `Infinity` (`none`),
producing an unbounded cache: `trim` on an unbounded cache removes
nothing, and every `set` returns `true`. -/
theorem C10_zero_max_means_unbounded (K V : Type) [DecidableEq K] :
    (normMax 0 = none) ∧
    (∀ lc stale mAge d n u,
      (newCache (K := K) (V := V) 0 lc stale mAge d n u).max = none) ∧
    (∀ st : LRU K V, setMax st 0 = ({ st with max := none }, [])) ∧
    (∀ st : LRU K V, st.max = none → trim st = (st, [])) ∧
    (∀ st : LRU K V, st.max = none → ∀ now key value mAge,
      (setOp st now key value mAge).1 = true) := by
  refine ⟨rfl, fun _ _ _ _ _ _ => rfl, ?_, ?_, ?_⟩
  · intro st
    show trim { st with max := normMax 0 } = _
    simp [normMax, trim, gtMax]
  · intro st hmax
    simp [trim, hmax, gtMax]
  · intro st hmax now key value mAge
    have hov : gtMax (st.lengthCalculator value key) st.max = false := by
      rw [hmax]; rfl
    cases hc : cacheGet st key with
    | some item => rw [setOp_overwrite now value mAge hc hov]
    | none => rw [setOp_insert now value mAge hc hov]

theorem C10_zero_max_means_unbounded_witness :
    (setOp (unitCache 0 false 0 false) 0 0 1 none).1 = true :=
  (C10_zero_max_means_unbounded Nat Nat).2.2.2.2 (unitCache 0 false 0 false)
    (by decide) 0 0 1 none

end Claims3

/-! ### The `load` replay and the `dump`/`load` round trip -/

section RoundTrip

variable {K V : Type} [DecidableEq K]

namespace LRU

theorem gtMax_le {x y : Int} {max : Option Int} (hxy : y ≤ x)
    (hx : gtMax x max = false) : gtMax y max = false := by
  cases max with
  | none => rfl
  | some m =>
    simp only [gtMax, decide_eq_false_iff_not, not_lt] at hx ⊢
    omega

theorem trim_noop {st : LRU K V} (h : gtMax st.totalLength st.max = false) :
    trim st = (st, []) := by
  simp [trim, h]

theorem load_eq_replay (self : LRU K V) (now : Int) (arr : List (K × V × Int)) :
    load self now arr = replayRecords now (reset self) arr := by
  unfold load replayRecords
  rw [List.foldl_reverse]

theorem replay_spec (t2 : Int) (base : LRU K V × List (K × V))
    (hbl : base.1.lruList = []) (hbk : base.1.cacheKeys = [])
    (hbt : base.1.totalLength = 0) :
    ∀ rl : List (K × V × Int),
      (rl.map (fun r => r.1)).Nodup →
      (∀ r ∈ rl, 0 ≤ recWeight base.1 r) →
      (∀ r ∈ rl, gtMax (recWeight base.1 r) base.1.max = false) →
      gtMax (((rl.filter (survives t2)).map (recWeight base.1)).sum)
        base.1.max = false →
      (replayRecords t2 base rl).1.lruList =
          (rl.filter (survives t2)).map (loadedEntry base.1 t2) ∧
      (replayRecords t2 base rl).1.cacheKeys =
          (rl.filter (survives t2)).map (fun r => r.1) ∧
      (replayRecords t2 base rl).1.totalLength =
          ((rl.filter (survives t2)).map (recWeight base.1)).sum ∧
      sameConfig (replayRecords t2 base rl).1 base.1 := by
  intro rl
  induction rl with
  | nil =>
    intro _ _ _ _
    refine ⟨?_, ?_, ?_, ?_⟩ <;>
      simp [replayRecords, hbl, hbk, hbt, sameConfig_refl]
  | cons a l ih =>
    intro hnd hw hwm hcap
    rw [List.map_cons] at hnd
    have hnd' := List.nodup_cons.1 hnd
    have hanotin : a.1 ∉ l.map (fun r => r.1) := hnd'.1
    have hndl : (l.map (fun r => r.1)).Nodup := hnd'.2
    have hwl : ∀ r ∈ l, 0 ≤ recWeight base.1 r :=
      fun r hr => hw r (List.mem_cons_of_mem a hr)
    have hwml : ∀ r ∈ l, gtMax (recWeight base.1 r) base.1.max = false :=
      fun r hr => hwm r (List.mem_cons_of_mem a hr)
    have hsumle : ((l.filter (survives t2)).map (recWeight base.1)).sum ≤
        (((a :: l).filter (survives t2)).map (recWeight base.1)).sum := by
      by_cases hs : survives t2 a = true
      · rw [List.filter_cons_of_pos hs, List.map_cons, List.sum_cons]
        have h0 : 0 ≤ recWeight base.1 a := hw a (List.mem_cons_self a l)
        omega
      · rw [List.filter_cons_of_neg (by simpa using hs)]
    have hcapl : gtMax (((l.filter (survives t2)).map (recWeight base.1)).sum)
        base.1.max = false := gtMax_le hsumle hcap
    obtain ⟨ihl, ihk, iht, ihcfg⟩ := ih hndl hwl hwml hcapl
    have hrepl : replayRecords t2 base (a :: l) =
        loadStep t2 (replayRecords t2 base l) a := rfl
    have hlc : (replayRecords t2 base l).1.lengthCalculator =
        base.1.lengthCalculator := ihcfg.2.1
    have hmax : (replayRecords t2 base l).1.max = base.1.max := ihcfg.1
    have hma : (replayRecords t2 base l).1.maxAge = base.1.maxAge := ihcfg.2.2.2.1
    have hcgnone : cacheGet (replayRecords t2 base l).1 a.1 = none := by
      unfold cacheGet
      rw [ihk]
      have hnone : a.1 ∉ (l.filter (survives t2)).map (fun r => r.1) := by
        intro hmem
        obtain ⟨r, hr, hrk⟩ := List.mem_map.1 hmem
        exact hanotin (List.mem_map.2 ⟨r, (List.mem_filter.1 hr).1, hrk⟩)
      simp [hnone]
    have hover : gtMax ((replayRecords t2 base l).1.lengthCalculator a.2.1 a.1)
        (replayRecords t2 base l).1.max = false := by
      rw [hlc, hmax]
      exact hwm a (List.mem_cons_self a l)
    by_cases hsurvb : survives t2 a = true
    · -- the record is inserted, with or without a TTL override
      have hcapwhole : gtMax
          (recWeight base.1 a + ((l.filter (survives t2)).map (recWeight base.1)).sum)
          base.1.max = false := by
        apply gtMax_le _ hcap
        rw [List.filter_cons_of_pos hsurvb, List.map_cons, List.sum_cons]
      -- the override argument the replay uses for this record
      have main : ∀ mArg : Option Int,
          effMaxAge (replayRecords t2 base l).1 mArg =
            (loadedEntry base.1 t2 a).maxAge →
          effNow t2 (effMaxAge (replayRecords t2 base l).1 mArg) =
            (loadedEntry base.1 t2 a).now →
          (setOp (replayRecords t2 base l).1 t2 a.1 a.2.1 mArg).2.1.lruList =
              ((a :: l).filter (survives t2)).map (loadedEntry base.1 t2) ∧
          (setOp (replayRecords t2 base l).1 t2 a.1 a.2.1 mArg).2.1.cacheKeys =
              ((a :: l).filter (survives t2)).map (fun r => r.1) ∧
          (setOp (replayRecords t2 base l).1 t2 a.1 a.2.1 mArg).2.1.totalLength =
              (((a :: l).filter (survives t2)).map (recWeight base.1)).sum ∧
          sameConfig (setOp (replayRecords t2 base l).1 t2 a.1 a.2.1 mArg).2.1
            base.1 := by
        intro mArg hema hen
        rw [setOp_insert t2 a.2.1 mArg hcgnone hover]
        have hinstot : (insertState (replayRecords t2 base l).1 t2 a.1 a.2.1
            mArg).totalLength =
            recWeight base.1 a +
              ((l.filter (survives t2)).map (recWeight base.1)).sum := by
          show (replayRecords t2 base l).1.totalLength +
              (replayRecords t2 base l).1.lengthCalculator a.2.1 a.1 = _
          rw [iht, hlc]
          simp only [recWeight]
          ring
        have hinsmax : (insertState (replayRecords t2 base l).1 t2 a.1 a.2.1
            mArg).max = base.1.max := by
          show (replayRecords t2 base l).1.max = base.1.max
          exact hmax
        have hnotrim : gtMax
            (insertState (replayRecords t2 base l).1 t2 a.1 a.2.1 mArg).totalLength
            (insertState (replayRecords t2 base l).1 t2 a.1 a.2.1 mArg).max
            = false := by
          rw [hinstot, hinsmax]
          exact hcapwhole
        rw [trim_noop hnotrim]
        have hentry : (⟨a.1, a.2.1,
            (replayRecords t2 base l).1.lengthCalculator a.2.1 a.1,
            effNow t2 (effMaxAge (replayRecords t2 base l).1 mArg),
            effMaxAge (replayRecords t2 base l).1 mArg⟩ : LEntry K V) =
            loadedEntry base.1 t2 a := by
          by_cases h0 : a.2.2 = 0 <;>
            simp [loadedEntry, h0] at hema hen ⊢ <;>
            rw [hema] at hen <;>
            simp [hema, hen, hlc]
        refine ⟨?_, ?_, ?_, ?_⟩
        · show _ :: (replayRecords t2 base l).1.lruList = _
          rw [List.filter_cons_of_pos hsurvb, List.map_cons, ihl, hentry]
        · show a.1 :: (replayRecords t2 base l).1.cacheKeys = _
          rw [List.filter_cons_of_pos hsurvb, List.map_cons, ihk]
        · rw [hinstot, List.filter_cons_of_pos hsurvb, List.map_cons, List.sum_cons]
        · have h1 : sameConfig
              (insertState (replayRecords t2 base l).1 t2 a.1 a.2.1 mArg)
              (replayRecords t2 base l).1 := by
            simp [insertState, sameConfig]
          exact sameConfig_trans h1 ihcfg
      by_cases he0 : a.2.2 = 0
      · have hstep : loadStep t2 (replayRecords t2 base l) a =
            ((setOp (replayRecords t2 base l).1 t2 a.1 a.2.1 none).2.1,
             (replayRecords t2 base l).2 ++
               (setOp (replayRecords t2 base l).1 t2 a.1 a.2.1 none).2.2) := by
          simp [loadStep, he0]
        rw [hrepl, hstep]
        exact main none (by simp [effMaxAge, hma, loadedEntry, he0])
          (by simp [effMaxAge, hma, loadedEntry, he0])
      · have hgt : a.2.2 - t2 > 0 := by
          have := hsurvb
          simp [survives, he0] at this
          omega
        have hstep : loadStep t2 (replayRecords t2 base l) a =
            ((setOp (replayRecords t2 base l).1 t2 a.1 a.2.1
                (some (a.2.2 - t2))).2.1,
             (replayRecords t2 base l).2 ++
               (setOp (replayRecords t2 base l).1 t2 a.1 a.2.1
                 (some (a.2.2 - t2))).2.2) := by
          simp [loadStep, he0, hgt]
        rw [hrepl, hstep]
        have hne : a.2.2 - t2 ≠ 0 := by omega
        exact main (some (a.2.2 - t2))
          (by simp [effMaxAge, hne, loadedEntry, he0])
          (by simp [effMaxAge, effNow, hne, loadedEntry, he0])
    · -- the record is silently dropped
      have hsurvf : survives t2 a = false := by simpa using hsurvb
      have hgt : ¬(a.2.2 - t2 > 0) := by
        intro h
        simp [survives, h] at hsurvf
      have he0 : ¬(a.2.2 = 0) := by
        intro h
        simp [survives, h] at hsurvf
      have hstep : loadStep t2 (replayRecords t2 base l) a =
          replayRecords t2 base l := by
        simp [loadStep, he0, hgt]
      rw [hrepl, hstep, List.filter_cons_of_neg (by simpa using hsurvf)]
      exact ⟨ihl, ihk, iht, ihcfg⟩

end LRU

end RoundTrip

section Claims4

open LRU

/-- C6 counterexample: the round trip does not preserve TTLs on every
reachable cache.  `exSentinel` holds the sentinel entry
`⟨0, 1, 1, 0, 0⟩` (inserted while the TTL was disabled) but its
cache-wide TTL was later set to 5, so the entry is long expired at
time 100; yet `dump` at time 3 (while it is still fresh) emits the
`e = 0` "never expires" sentinel for it, and `load` at time 100 — far
past its real expiry — reinstates it with a fresh full default TTL
(`⟨0, 1, 1, 100, 5⟩`, reported live by `has`) instead of dropping the
expired record and instead of an equivalent remaining TTL. -/
theorem C6_dump_load_round_trip_counterexample :
    isStale exSentinel 100 (⟨0, 1, 1, 0, 0⟩ : LEntry Nat Nat) = true ∧
    dump exSentinel 3 = [(0, 1, 0)] ∧
    (load exSentinelFresh 100 (dump exSentinel 3)).1.lruList =
      [⟨0, 1, 1, 100, 5⟩] ∧
    has (load exSentinelFresh 100 (dump exSentinel 3)).1 100 0 = true := by
  decide

/-- C6, amended: `dump` emits the non-stale entries head-to-tail as
records `(key, value, expiresAt)` with `expiresAt = createdAt + maxAge`
(which is the 0 sentinel for entries stored without any TTL), and
`load` of that sequence into a fresh, equally configured cache clears
it and replays the records in reverse order through `set`, silently
dropping records whose recomputed remaining TTL `expiresAt - now` is
not positive; the result holds exactly the surviving keys in the
original recency order, never-expiring entries reproduced verbatim
and expiring ones with the same absolute expiry instant
(`now = t2`, `maxAge = expiresAt - t2`) — provided (beyond the
structural invariant, capacity fit, and weights/timestamps matching
the weight function and clock) that every entry either carries a
positive per-entry TTL or is a no-TTL sentinel entry in a cache whose
default TTL is disabled.  The proviso is forced by
`C6_dump_load_round_trip_counterexample`: a sentinel entry in a cache
whose cache-wide TTL was enabled later dumps as "never expires" and
is reinstated by `load` with a fresh full default TTL. -/
theorem C6_dump_load_round_trip {K V : Type} [DecidableEq K]
    (st fresh : LRU K V) (t1 t2 : Int)
    (hwf : WF st)
    (hmaxeq : fresh.max = st.max)
    (hlceq : fresh.lengthCalculator = st.lengthCalculator)
    (hmaeq : fresh.maxAge = st.maxAge)
    (hlen : ∀ hit ∈ st.lruList, hit.length = st.lengthCalculator hit.value hit.key)
    (hpos : ∀ hit ∈ st.lruList, 0 ≤ hit.length)
    (hts : ∀ hit ∈ st.lruList, 0 ≤ hit.now)
    (hent : ∀ hit ∈ st.lruList, 0 < hit.maxAge ∨
      (hit.maxAge = 0 ∧ hit.now = 0 ∧ st.maxAge = 0))
    (hcap : gtMax st.totalLength st.max = false) :
    dump st t1 = (st.lruList.filter (fun hit => !isStale st t1 hit)).map
      (fun hit => (hit.key, hit.value, hit.now + hit.maxAge)) ∧
    (load fresh t2 (dump st t1)).1.lruList =
      ((st.lruList.filter (fun hit => !isStale st t1 hit)).filter
        (fun hit => decide (hit.maxAge = 0) ||
          decide (hit.now + hit.maxAge - t2 > 0))).map
      (fun hit => if hit.maxAge = 0 then hit
        else { hit with now := t2, maxAge := hit.now + hit.maxAge - t2 }) := by
  refine ⟨rfl, ?_⟩
  have hLmem : ∀ hit, hit ∈ st.lruList.filter (fun hit => !isStale st t1 hit) →
      hit ∈ st.lruList := fun hit h => (List.mem_filter.1 h).1
  -- the dumped records, as the image of the filtered entry list
  have hdump : dump st t1 =
      (st.lruList.filter (fun hit => !isStale st t1 hit)).map
        (fun hit => (hit.key, hit.value, hit.now + hit.maxAge)) := rfl
  have hndl : (st.lruList.map (fun e => e.key)).Nodup := hwf.1.perm hwf.2.1
  have hsum : st.totalLength = (st.lruList.map (fun e => e.length)).sum := hwf.2.2
  have hsubL : List.Sublist
      ((st.lruList.filter (fun hit => !isStale st t1 hit)).map (fun e => e.length))
      (st.lruList.map (fun e => e.length)) :=
    (List.filter_sublist st.lruList).map _
  -- the record weights are the original entry weights
  have hrw : ∀ hit ∈ st.lruList,
      recWeight (reset fresh).1 (hit.key, hit.value, hit.now + hit.maxAge) =
        hit.length := by
    intro hit hm
    show fresh.lengthCalculator hit.value hit.key = hit.length
    rw [hlceq, ← hlen hit hm]
  -- hypotheses of the replay lemma
  have h1 : ((dump st t1).map (fun r => r.1)).Nodup := by
    rw [hdump, List.map_map]
    have : List.Sublist
        ((st.lruList.filter (fun hit => !isStale st t1 hit)).map (fun e => e.key))
        (st.lruList.map (fun e => e.key)) :=
      (List.filter_sublist st.lruList).map _
    exact (hndl.sublist this)
  have h2 : ∀ r ∈ dump st t1, 0 ≤ recWeight (reset fresh).1 r := by
    intro r hr
    rw [hdump] at hr
    obtain ⟨hit, hm, rfl⟩ := List.mem_map.1 hr
    rw [hrw hit (hLmem hit hm)]
    exact hpos hit (hLmem hit hm)
  have h3 : ∀ r ∈ dump st t1,
      gtMax (recWeight (reset fresh).1 r) (reset fresh).1.max = false := by
    intro r hr
    rw [hdump] at hr
    obtain ⟨hit, hm, rfl⟩ := List.mem_map.1 hr
    rw [hrw hit (hLmem hit hm)]
    show gtMax hit.length fresh.max = false
    rw [hmaxeq]
    apply gtMax_le _ hcap
    rw [hsum]
    apply List.single_le_sum
    · intro y hy
      obtain ⟨e, he, rfl⟩ := List.mem_map.1 hy
      exact hpos e he
    · exact List.mem_map.2 ⟨hit, hLmem hit hm, rfl⟩
  have h4 : gtMax
      ((((dump st t1).filter (survives t2)).map (recWeight (reset fresh).1)).sum)
      (reset fresh).1.max = false := by
    show gtMax _ fresh.max = false
    rw [hmaxeq]
    apply gtMax_le _ hcap
    have s1 : List.Sublist
        (((dump st t1).filter (survives t2)).map (recWeight (reset fresh).1))
        ((dump st t1).map (recWeight (reset fresh).1)) :=
      (List.filter_sublist (dump st t1)).map _
    have e1 : (dump st t1).map (recWeight (reset fresh).1) =
        (st.lruList.filter (fun hit => !isStale st t1 hit)).map (fun e => e.length) := by
      rw [hdump, List.map_map]
      apply List.map_eq_map_iff.mpr
      intro hit hm
      exact hrw hit (hLmem hit hm)
    have s2 : (((dump st t1).filter (survives t2)).map
        (recWeight (reset fresh).1)).sum ≤
        ((st.lruList.filter (fun hit => !isStale st t1 hit)).map
          (fun e => e.length)).sum := by
      rw [← e1]
      apply List.Sublist.sum_le_sum s1
      rw [e1]
      intro x hx
      obtain ⟨e, he, rfl⟩ := List.mem_map.1 hx
      exact hpos e (hLmem e he)
    have s3 : ((st.lruList.filter (fun hit => !isStale st t1 hit)).map
        (fun e => e.length)).sum ≤ (st.lruList.map (fun e => e.length)).sum := by
      apply List.Sublist.sum_le_sum hsubL
      intro x hx
      obtain ⟨e, he, rfl⟩ := List.mem_map.1 hx
      exact hpos e he
    rw [hsum]
    omega
  rw [load_eq_replay]
  have hmain := (replay_spec t2 (reset fresh) rfl rfl rfl (dump st t1)
    h1 h2 h3 h4).1
  rw [hmain, hdump, List.filter_map, List.map_map]
  -- the surviving predicate agrees with the claimed one
  have hfc : (st.lruList.filter (fun hit => !isStale st t1 hit)).filter
      ((survives t2) ∘ (fun hit => (hit.key, hit.value, hit.now + hit.maxAge))) =
      (st.lruList.filter (fun hit => !isStale st t1 hit)).filter
        (fun hit => decide (hit.maxAge = 0) ||
          decide (hit.now + hit.maxAge - t2 > 0)) := by
    apply List.filter_congr
    intro hit hm
    show survives t2 (hit.key, hit.value, hit.now + hit.maxAge) = _
    unfold survives
    have h5 : (decide (hit.now + hit.maxAge = 0)) = (decide (hit.maxAge = 0)) := by
      apply decide_eq_decide.2
      rcases hent hit (hLmem hit hm) with h | ⟨ha, hb, _⟩
      · have := hts hit (hLmem hit hm)
        constructor <;> intro <;> omega
      · constructor <;> intro <;> omega
    rw [h5]
  rw [hfc]
  -- the rebuilt entries agree with the claimed ones
  apply List.map_eq_map_iff.mpr
  intro hit hm
  have hmL : hit ∈ st.lruList :=
    hLmem hit (List.mem_of_mem_filter hm)
  have hlenh := hlen hit hmL
  have htsh := hts hit hmL
  have henth := hent hit hmL
  obtain ⟨k, v, len, n, m⟩ := hit
  dsimp only at hlenh htsh henth ⊢
  show loadedEntry (reset fresh).1 t2 (k, v, n + m) = _
  unfold loadedEntry
  dsimp only
  rcases henth with h | ⟨ha, hb, hc⟩
  · have hne : ¬(n + m = 0) := by omega
    have hne2 : ¬(m = 0) := by omega
    rw [if_neg hne, if_neg hne2]
    show (⟨k, v, fresh.lengthCalculator v k, t2, n + m - t2⟩ : LEntry K V) =
      ⟨k, v, len, t2, n + m - t2⟩
    rw [hlceq, ← hlenh]
  · subst ha
    subst hb
    rw [if_pos (by omega : (0 : Int) + 0 = 0), if_pos (rfl : (0 : Int) = 0)]
    show (⟨k, v, fresh.lengthCalculator v k, effNow t2 fresh.maxAge,
      fresh.maxAge⟩ : LEntry K V) = ⟨k, v, len, 0, 0⟩
    rw [hlceq, ← hlenh, hmaeq, hc]
    rfl

theorem C6_dump_load_round_trip_witness :
    (load (unitCache 10 false 0 false) 200 (dump exRound 120)).1.lruList =
      ((exRound.lruList.filter (fun hit => !isStale exRound 120 hit)).filter
        (fun hit => decide (hit.maxAge = 0) ||
          decide (hit.now + hit.maxAge - 200 > 0))).map
      (fun hit => if hit.maxAge = 0 then hit
        else { hit with now := 200, maxAge := hit.now + hit.maxAge - 200 }) :=
  (C6_dump_load_round_trip exRound (unitCache 10 false 0 false) 120 200
    (by decide) (by decide) rfl rfl (by decide) (by decide) (by decide)
    (by decide) (by decide)).2

end Claims4
